import Mathlib

/-!
Shallow embedding of the 2048 board engine (`lib/game-logic.ts`).

Boards are lists of rows of natural numbers (`0` = empty cell).  The one
source of non-determinism, `Math.random()` in `addRandomTile`, is made
explicit: the caller supplies `k : Nat` (the empty-cell index is
`k % emptyCells.length`, matching `Math.floor(Math.random() * len)` whose
range is `[0, len)`) and `v : Bool` (`true` picks value 4, the
probability-0.1 branch of `Math.random() < 0.9 ? 2 : 4`).
-/

namespace Game2048

abbrev Tile := Nat

abbrev Board := List (List Tile)

structure GameState where
  board : Board
  score : Nat
  gameOver : Bool
  won : Bool
deriving DecidableEq

inductive Direction where
  | up
  | down
  | left
  | right
deriving DecidableEq, Fintype

/-- `getEmptyCells`: row-major list of coordinates holding `0`. -/
def getEmptyCells (board : Board) : List (Nat × Nat) :=
  (board.enum.map fun p =>
    p.2.enum.filterMap fun q => if q.2 = 0 then some (p.1, q.1) else none).flatten

/-- The copy-then-assign step of `addRandomTile`
(`newBoard = board.map(r => [...r]); newBoard[row][col] = value`). -/
def setCell (board : Board) (r c : Nat) (value : Tile) : Board :=
  board.set r ((board.getD r []).set c value)

/-- `addRandomTile` with the random draws made explicit (`k` chooses the
empty cell, `v` chooses between value 2 and value 4). -/
def addRandomTile (k : Nat) (v : Bool) (board : Board) : Board :=
  let emptyCells := getEmptyCells board
  if emptyCells.length = 0 then board
  else
    let rc := emptyCells.getD (k % emptyCells.length) (0, 0)
    let value : Tile := if v then 4 else 2
    setCell board rc.1 rc.2 value

/-- The `while (i < filtered.length)` merge loop of `slideRow`, as structural
recursion on the suffix starting at `i`: an equal adjacent pair emits the
doubled value, adds it to the score and consumes both inputs; otherwise the
head passes through. -/
def mergePass : List Tile → List Tile × Nat
  | [] => ([], 0)
  | [x] => ([x], 0)
  | x :: y :: rest =>
    if x = y then
      let r := mergePass rest
      (x * 2 :: r.1, r.2 + x * 2)
    else
      let r := mergePass (y :: rest)
      (x :: r.1, r.2)

/-- `slideRow`: drop zeros, run the merge loop, right-pad with zeros back to
the original length. -/
def slideRow (row : List Tile) : List Tile × Nat :=
  let filtered := row.filter fun c => c ≠ 0
  let m := mergePass filtered
  (m.1 ++ List.replicate (row.length - m.1.length) 0, m.2)

/-- `rotateBoard`: `board[0].map((_, c) => board.map(row => row[c]).reverse())`
— one clockwise rotation. -/
def rotateBoard (board : Board) : Board :=
  (List.range (board.headD []).length).map fun colIndex =>
    (board.map fun row => row.getD colIndex 0).reverse

/-- `boardsEqual(b1, b2)`: `b1.every((row, i) => row.every((cell, j) =>
cell === b2[i][j]))`; an out-of-range access on `b2` compares unequal. -/
def boardsEqual (board1 board2 : Board) : Bool :=
  board1.enum.all fun p =>
    p.2.enum.all fun q =>
      some q.2 == ((board2.get? p.1).bind fun r => r.get? q.1)

/-- `moveLeft`: slide every row, accumulating the per-row scores. -/
def moveLeft (board : Board) : Board × Nat :=
  board.foldr
    (fun row acc =>
      let r := slideRow row
      (r.1 :: acc.1, r.2 + acc.2))
    ([], 0)

/-- `moveRight`: reverse each row, slide it, reverse the result back. -/
def moveRight (board : Board) : Board × Nat :=
  board.foldr
    (fun row acc =>
      let r := slideRow row.reverse
      (r.1.reverse :: acc.1, r.2 + acc.2))
    ([], 0)

/-- `moveUp`: three clockwise rotations, slide left, one rotation back. -/
def moveUp (board : Board) : Board × Nat :=
  let rotated := rotateBoard (rotateBoard (rotateBoard board))
  let moved := moveLeft rotated
  (rotateBoard moved.1, moved.2)

/-- `moveDown`: one clockwise rotation, slide left, three rotations back. -/
def moveDown (board : Board) : Board × Nat :=
  let rotated := rotateBoard board
  let moved := moveLeft rotated
  (rotateBoard (rotateBoard (rotateBoard moved.1)), moved.2)

/-- The direction `switch` of `makeMove` (the spec's `applyDirection`). -/
def applyDirection (board : Board) : Direction → Board × Nat
  | .left => moveLeft board
  | .right => moveRight board
  | .up => moveUp board
  | .down => moveDown board

/-- `canMove`: an empty cell exists, or some cell equals its right or bottom
neighbour (the index guards mirror the short-circuiting bounds checks). -/
def canMove (board : Board) : Bool :=
  if 0 < (getEmptyCells board).length then true
  else
    let size := board.length
    (List.range size).any fun i =>
      (List.range size).any fun j =>
        let current := (board.getD i []).getD j 0
        (decide (j < size - 1) && (current == (board.getD i []).getD (j + 1) 0))
          || (decide (i < size - 1) && (current == (board.getD (i + 1) []).getD j 0))

/-- `hasWon`: some cell is at least 2048. -/
def hasWon (board : Board) : Bool :=
  board.any fun row => row.any fun cell => decide (2048 ≤ cell)

/-- `makeMove`, with `addRandomTile`'s random draws passed through. -/
def makeMove (k : Nat) (v : Bool) (state : GameState) (direction : Direction) :
    GameState :=
  if state.gameOver then state
  else
    let result := applyDirection state.board direction
    if boardsEqual result.1 state.board then state
    else
      let newBoard := addRandomTile k v result.1
      { board := newBoard
        score := state.score + result.2
        gameOver := !canMove newBoard
        won := !state.won && hasWon newBoard }

/-- The grid is a well-formed `n × n` matrix. -/
def isSquare (board : Board) (n : Nat) : Prop :=
  board.length = n ∧ ∀ row ∈ board, row.length = n

instance (board : Board) (n : Nat) : Decidable (isSquare board n) := by
  unfold isSquare; infer_instance

/-- Cell access with the defaults the code relies on in-bounds. -/
def cellOf (board : Board) (r c : Nat) : Tile :=
  (board.getD r []).getD c 0

/-! ### Basic lemmas -/

theorem boardsEqual_self (b : Board) : boardsEqual b b = true := by
  unfold boardsEqual
  rw [List.all_eq_true]
  intro p hp
  rw [List.all_eq_true]
  intro q hq
  have h1 : b[p.1]? = some p.2 := List.mem_enum_iff_getElem?.mp hp
  have h2 : p.2[q.1]? = some q.2 := List.mem_enum_iff_getElem?.mp hq
  simp [h1, h2]

theorem mergePass_sum : ∀ l : List Tile, (mergePass l).1.sum = l.sum
  | [] => by simp [mergePass]
  | [x] => by simp [mergePass]
  | x :: y :: rest => by
    by_cases h : x = y
    · subst h
      simp [mergePass, mergePass_sum rest]
      ring
    · simp [mergePass, h, mergePass_sum (y :: rest)]

theorem filter_nonzero_sum (row : List Tile) :
    (row.filter fun c => c ≠ 0).sum = row.sum := by
  induction row with
  | nil => simp
  | cons a rest ih =>
    simp at ih
    by_cases h : a = 0
    · subst h
      simpa using ih
    · simp [List.filter_cons, h, ih]

theorem moveLeft_cons (r : List Tile) (t : Board) :
    moveLeft (r :: t) = ((slideRow r).1 :: (moveLeft t).1, (slideRow r).2 + (moveLeft t).2) :=
  rfl

theorem moveRight_cons (r : List Tile) (t : Board) :
    moveRight (r :: t)
      = (((slideRow r.reverse).1).reverse :: (moveRight t).1,
         (slideRow r.reverse).2 + (moveRight t).2) :=
  rfl

theorem moveLeft_eq (b : Board) :
    moveLeft b = (b.map fun r => (slideRow r).1, (b.map fun r => (slideRow r).2).sum) := by
  induction b with
  | nil => rfl
  | cons r t ih => rw [moveLeft_cons, ih]; simp

theorem moveRight_eq (b : Board) :
    moveRight b
      = (b.map fun r => ((slideRow r.reverse).1).reverse,
         (b.map fun r => (slideRow r.reverse).2).sum) := by
  induction b with
  | nil => rfl
  | cons r t ih => rw [moveRight_cons, ih]; simp

/-! ### Rotation lemmas -/

theorem headD_length_of_isSquare {b : Board} {n : Nat} (h : isSquare b n) :
    (b.headD []).length = n := by
  obtain ⟨hlen, hrow⟩ := h
  cases b with
  | nil => simpa using hlen
  | cons r t => simpa using hrow r (by simp)

theorem rotateBoard_length {b : Board} {n : Nat} (h : isSquare b n) :
    (rotateBoard b).length = n := by
  unfold rotateBoard
  rw [headD_length_of_isSquare h]
  simp

theorem rotateBoard_row_length {b : Board} {n : Nat} (h : isSquare b n) :
    ∀ row ∈ rotateBoard b, row.length = n := by
  intro row hrow
  simp only [rotateBoard, List.mem_map, List.mem_range] at hrow
  obtain ⟨j, hj, rfl⟩ := hrow
  simp [h.1]

theorem isSquare_rotateBoard {b : Board} {n : Nat} (h : isSquare b n) :
    isSquare (rotateBoard b) n :=
  ⟨rotateBoard_length h, rotateBoard_row_length h⟩

theorem cellOf_rotateBoard {b : Board} {n : Nat} (h : isSquare b n)
    {r c : Nat} (hr : r < n) (hc : c < n) :
    cellOf (rotateBoard b) r c = cellOf b (n - 1 - c) r := by
  have hb : b.length = n := h.1
  have hrowlen : n - 1 - c < b.length := by omega
  have hrow_eq : (rotateBoard b).getD r [] = (b.map fun row => row.getD r 0).reverse := by
    unfold rotateBoard
    rw [headD_length_of_isSquare h]
    rw [List.getD_eq_getElem _ _ (by simpa using hr)]
    simp
  unfold cellOf
  rw [hrow_eq]
  have hc2 : c < ((b.map fun row => row.getD r 0).reverse).length := by
    simpa [hb] using hc
  rw [List.getD_eq_getElem _ _ hc2]
  rw [List.getElem_reverse]
  rw [List.getElem_map]
  rw [List.getD_eq_getElem b _ hrowlen]
  simp [hb]

theorem board_ext {a b : Board} {n : Nat} (ha : isSquare a n) (hb : isSquare b n)
    (h : ∀ r c, r < n → c < n → cellOf a r c = cellOf b r c) : a = b := by
  apply List.ext_getElem (by rw [ha.1, hb.1])
  intro i h1 h2
  have hi : i < n := by rw [← ha.1]; exact h1
  apply List.ext_getElem (by rw [ha.2 _ (List.getElem_mem h1), hb.2 _ (List.getElem_mem h2)])
  intro j hj1 hj2
  have hj : j < n := by rw [← ha.2 _ (List.getElem_mem h1)]; exact hj1
  have := h i j hi hj
  unfold cellOf at this
  rwa [List.getD_eq_getElem _ _ h1, List.getD_eq_getElem _ _ h2,
    List.getD_eq_getElem _ _ hj1, List.getD_eq_getElem _ _ hj2] at this

theorem rotateBoard_four {b : Board} {n : Nat} (h : isSquare b n) :
    rotateBoard (rotateBoard (rotateBoard (rotateBoard b))) = b := by
  have h1 := isSquare_rotateBoard h
  have h2 := isSquare_rotateBoard h1
  have h3 := isSquare_rotateBoard h2
  have h4 := isSquare_rotateBoard h3
  apply board_ext h4 h
  intro r c hr hc
  rw [cellOf_rotateBoard h3 hr hc,
    cellOf_rotateBoard h2 (show n - 1 - c < n by omega) hr,
    cellOf_rotateBoard h1 (show n - 1 - r < n by omega) (show n - 1 - c < n by omega),
    cellOf_rotateBoard h (show n - 1 - (n - 1 - c) < n by omega)
      (show n - 1 - r < n by omega)]
  congr 1 <;> omega

/-! ### Merge-loop structure lemmas -/

theorem mergePass_length_le : ∀ l : List Tile, (mergePass l).1.length ≤ l.length
  | [] => Nat.le_refl _
  | [_] => Nat.le_refl _
  | x :: y :: rest => by
    by_cases h : x = y
    · have ih := mergePass_length_le rest
      simp only [mergePass, if_pos h, List.length_cons]
      omega
    · have ih := mergePass_length_le (y :: rest)
      simp only [mergePass, if_neg h, List.length_cons] at ih ⊢
      omega

theorem mergePass_eq_or_lt : ∀ l : List Tile,
    (mergePass l).1 = l ∨ (mergePass l).1.length < l.length
  | [] => Or.inl rfl
  | [_] => Or.inl rfl
  | x :: y :: rest => by
    by_cases h : x = y
    · right
      have := mergePass_length_le rest
      simp only [mergePass, if_pos h, List.length_cons]
      omega
    · rcases mergePass_eq_or_lt (y :: rest) with heq | hlt
      · left
        simp only [mergePass, if_neg h, heq]
      · right
        simp only [mergePass, if_neg h, List.length_cons] at hlt ⊢
        omega

theorem mergePass_lt_of_not_chain : ∀ l : List Tile, ¬ l.Chain' (· ≠ ·) →
    (mergePass l).1.length < l.length
  | [], h => absurd List.chain'_nil h
  | [x], h => absurd (List.chain'_singleton x) h
  | x :: y :: rest, h => by
    by_cases hxy : x = y
    · have := mergePass_length_le rest
      simp only [mergePass, if_pos hxy, List.length_cons]
      omega
    · have hch : ¬ (y :: rest).Chain' (· ≠ ·) := fun hc =>
        h (List.chain'_cons.mpr ⟨hxy, hc⟩)
      have := mergePass_lt_of_not_chain (y :: rest) hch
      simp only [mergePass, if_neg hxy, List.length_cons] at this ⊢
      omega

theorem mergePass_eq_self_of_chain : ∀ l : List Tile, l.Chain' (· ≠ ·) →
    mergePass l = (l, 0)
  | [], _ => rfl
  | [_], _ => rfl
  | x :: y :: rest, h => by
    obtain ⟨hxy, hc⟩ := List.chain'_cons.mp h
    simp only [mergePass, if_neg hxy, mergePass_eq_self_of_chain (y :: rest) hc]

theorem mergePass_nonzero : ∀ l : List Tile, (∀ x ∈ l, x ≠ 0) →
    ∀ x ∈ (mergePass l).1, x ≠ 0
  | [], _ => by simp [mergePass]
  | [x], h => by simpa [mergePass] using h
  | a :: b' :: rest, h => by
    by_cases hab : a = b'
    · intro x hx
      simp only [mergePass, if_pos hab] at hx
      rcases List.mem_cons.mp hx with heq | hx2
      · subst heq
        exact Nat.mul_ne_zero (h a (by simp)) (by decide)
      · exact mergePass_nonzero rest
          (fun z hz => h z (List.mem_cons_of_mem a (List.mem_cons_of_mem b' hz)))
          x hx2
    · intro x hx
      simp only [mergePass, if_neg hab] at hx
      rcases List.mem_cons.mp hx with rfl | hx2
      · exact h x (by simp)
      · exact mergePass_nonzero (b' :: rest)
          (fun z hz => h z (List.mem_cons_of_mem a hz)) x hx2

/-! ### slideRow structure lemmas -/

theorem slideRow_length (row : List Tile) :
    (slideRow row).1.length = row.length := by
  have h1 : (mergePass (row.filter fun c => c ≠ 0)).1.length ≤ row.length :=
    le_trans (mergePass_length_le _) (List.length_filter_le _ _)
  simp only [slideRow, List.length_append, List.length_replicate]
  omega

theorem slideRow_eq_or_zero (row : List Tile) :
    (slideRow row).1 = row ∨ 0 ∈ (slideRow row).1 := by
  have hfle : (row.filter fun c => c ≠ 0).length ≤ row.length :=
    List.length_filter_le _ _
  have hmle := mergePass_length_le (row.filter fun c => c ≠ 0)
  by_cases hlt : (mergePass (row.filter fun c => c ≠ 0)).1.length < row.length
  · right
    simp only [slideRow]
    refine List.mem_append.mpr (Or.inr ?_)
    rw [List.mem_replicate]
    exact ⟨by omega, rfl⟩
  · left
    have hfeq : (row.filter fun c => c ≠ 0).length = row.length := by omega
    have hf_eq_row : (row.filter fun c => c ≠ 0) = row :=
      (List.filter_sublist row).eq_of_length hfeq
    have hm_eq : (mergePass (row.filter fun c => c ≠ 0)).1
        = row.filter fun c => c ≠ 0 := by
      rcases mergePass_eq_or_lt (row.filter fun c => c ≠ 0) with h | h
      · exact h
      · omega
    simp only [slideRow]
    rw [hm_eq, hf_eq_row, Nat.sub_self]
    simp

theorem slideRow_fix_of_nonzero_chain {row : List Tile}
    (h0 : ∀ x ∈ row, x ≠ 0) (hch : row.Chain' (· ≠ ·)) :
    slideRow row = (row, 0) := by
  have hf : row.filter (fun c => c ≠ 0) = row :=
    List.filter_eq_self.mpr (by simpa using h0)
  simp only [slideRow]
  rw [hf, mergePass_eq_self_of_chain row hch, Nat.sub_self]
  simp

theorem slideRow_ne_of_nonzero_not_chain {row : List Tile}
    (h0 : ∀ x ∈ row, x ≠ 0) (hch : ¬ row.Chain' (· ≠ ·)) :
    (slideRow row).1 ≠ row := by
  intro he
  have hf : row.filter (fun c => c ≠ 0) = row :=
    List.filter_eq_self.mpr (by simpa using h0)
  have hlt := mergePass_lt_of_not_chain row hch
  have hz : (0 : Tile) ∈ (slideRow row).1 := by
    simp only [slideRow]
    refine List.mem_append.mpr (Or.inr ?_)
    rw [List.mem_replicate, hf]
    exact ⟨by omega, rfl⟩
  rw [he] at hz
  exact h0 0 hz rfl

/-! ### Empty-cell and spawn lemmas -/

theorem getD_set_ne {α : Type _} (l : List α) (i j : Nat) (x d : α) (h : i ≠ j) :
    (l.set i x).getD j d = l.getD j d := by
  simp [List.getD, List.getElem?_set_ne h]

theorem getD_set_self {α : Type _} (l : List α) (i : Nat) (x d : α)
    (h : i < l.length) :
    (l.set i x).getD i d = x := by
  simp [List.getD, List.getElem?_set_self, h]

theorem getD_of_length_le {α : Type _} (l : List α) (i : Nat) (d : α)
    (h : l.length ≤ i) :
    l.getD i d = d := by
  simp [List.getD, List.getElem?_eq_none h]

theorem mem_getEmptyCells {b : Board} {r c : Nat} :
    (r, c) ∈ getEmptyCells b ↔ ∃ row, b[r]? = some row ∧ row[c]? = some 0 := by
  unfold getEmptyCells
  simp only [List.mem_flatten, List.mem_map]
  constructor
  · rintro ⟨l, ⟨p, hp, rfl⟩, hmem⟩
    rw [List.mem_filterMap] at hmem
    obtain ⟨q, hq, hval⟩ := hmem
    rw [List.mem_enum_iff_getElem?] at hq
    rw [List.mem_enum_iff_getElem?] at hp
    split at hval
    · rename_i h0
      obtain ⟨h1, h2⟩ := Prod.mk.injEq _ _ _ _ ▸ Option.some.inj hval
      exact ⟨p.2, h1 ▸ hp, h2 ▸ h0 ▸ hq⟩
    · exact absurd hval (by simp)
  · rintro ⟨row, h1, h2⟩
    refine ⟨_, ⟨(r, row), List.mem_enum_iff_getElem?.mpr h1, rfl⟩, ?_⟩
    rw [List.mem_filterMap]
    exact ⟨(c, 0), List.mem_enum_iff_getElem?.mpr h2, by simp⟩

theorem getEmptyCells_eq_nil_iff {b : Board} :
    getEmptyCells b = [] ↔ ∀ row ∈ b, ∀ x ∈ row, x ≠ 0 := by
  constructor
  · intro hnil row hrow x hx hx0
    obtain ⟨r, hr⟩ := List.mem_iff_getElem?.mp hrow
    obtain ⟨c, hc⟩ := List.mem_iff_getElem?.mp hx
    have : (r, c) ∈ getEmptyCells b :=
      mem_getEmptyCells.mpr ⟨row, hr, hx0 ▸ hc⟩
    simp [hnil] at this
  · intro hall
    by_contra hne
    obtain ⟨p, hp⟩ := List.exists_mem_of_ne_nil _ hne
    obtain ⟨row, h1, h2⟩ := mem_getEmptyCells.mp (show (p.1, p.2) ∈ _ from hp)
    exact hall row (List.mem_iff_getElem?.mpr ⟨p.1, h1⟩) 0
      (List.mem_iff_getElem?.mpr ⟨p.2, h2⟩) rfl

theorem setCell_getD_other {b : Board} {r c : Nat} {val : Tile} {i j : Nat}
    (h : ¬(i = r ∧ j = c)) :
    cellOf (setCell b r c val) i j = cellOf b i j := by
  unfold cellOf setCell
  by_cases hir : i = r
  · subst hir
    have hjc : j ≠ c := fun hh => h ⟨rfl, hh⟩
    by_cases hlen : i < b.length
    · rw [getD_set_self b i _ [] hlen]
      rw [getD_set_ne _ c j val 0 (Ne.symm hjc)]
    · rw [List.set_eq_of_length_le (by omega)]
  · rw [getD_set_ne b r i _ [] (fun hh => hir hh.symm)]

theorem setCell_getD_self {b : Board} {r c : Nat} {val : Tile} {row : List Tile}
    (hr : b[r]? = some row) (hc : c < row.length) :
    cellOf (setCell b r c val) r c = val := by
  have hrl : r < b.length := (List.getElem?_eq_some_iff.mp hr).1
  have hrow : b.getD r [] = row := by
    rw [List.getD_eq_getElem?_getD, hr]
    rfl
  unfold cellOf setCell
  rw [hrow, getD_set_self b r _ [] hrl, getD_set_self row c val 0 hc]

/-! ### Zero-cell preservation lemmas -/

theorem getEmptyCells_ne_nil_of_zero_mem {b : Board} {row : List Tile}
    (hrow : row ∈ b) (h0 : (0 : Tile) ∈ row) : getEmptyCells b ≠ [] := fun hnil =>
  (getEmptyCells_eq_nil_iff.mp hnil) row hrow 0 h0 rfl

theorem map_eq_self_of_getD {f : List Tile → List Tile} {b : Board}
    (h : ∀ i, i < b.length → f (b.getD i []) = b.getD i []) : b.map f = b := by
  apply List.ext_getElem (by simp)
  intro i h1 h2
  rw [List.getElem_map]
  have := h i h2
  rwa [List.getD_eq_getElem _ _ h2] at this

theorem moveLeft_changed_zero {b : Board} (h : (moveLeft b).1 ≠ b) :
    ∃ row ∈ (moveLeft b).1, (0 : Tile) ∈ row := by
  have hml : (moveLeft b).1 = b.map fun r => (slideRow r).1 := by
    rw [moveLeft_eq]
  rw [hml] at h ⊢
  by_contra hall
  push_neg at hall
  apply h
  apply map_eq_self_of_getD
  intro i hi
  rcases slideRow_eq_or_zero (b.getD i []) with he | hz
  · exact he
  · exfalso
    refine hall ((slideRow (b.getD i [])).1) ?_ hz
    have : (b.map fun r => (slideRow r).1).getD i [] = (slideRow (b.getD i [])).1 := by
      rw [List.getD_eq_getElem _ _ (by simpa using hi), List.getElem_map,
        List.getD_eq_getElem _ _ hi]
    rw [← this]
    rw [List.getD_eq_getElem _ _ (by simpa using hi)]
    exact List.getElem_mem _

theorem moveRight_changed_zero {b : Board} (h : (moveRight b).1 ≠ b) :
    ∃ row ∈ (moveRight b).1, (0 : Tile) ∈ row := by
  have hmr : (moveRight b).1 = b.map fun r => ((slideRow r.reverse).1).reverse := by
    rw [moveRight_eq]
  rw [hmr] at h ⊢
  by_contra hall
  push_neg at hall
  apply h
  apply map_eq_self_of_getD
  intro i hi
  rcases slideRow_eq_or_zero ((b.getD i []).reverse) with he | hz
  · rw [he, List.reverse_reverse]
  · exfalso
    refine hall (((slideRow ((b.getD i []).reverse)).1).reverse) ?_
      (List.mem_reverse.mpr hz)
    have : (b.map fun r => ((slideRow r.reverse).1).reverse).getD i []
        = ((slideRow ((b.getD i []).reverse)).1).reverse := by
      rw [List.getD_eq_getElem _ _ (by simpa using hi), List.getElem_map,
        List.getD_eq_getElem _ _ hi]
    rw [← this]
    rw [List.getD_eq_getElem _ _ (by simpa using hi)]
    exact List.getElem_mem _

theorem isSquare_moveLeft {b : Board} {n : Nat} (h : isSquare b n) :
    isSquare ((moveLeft b).1) n := by
  rw [moveLeft_eq]
  refine ⟨by simpa using h.1, ?_⟩
  intro row hrow
  simp only [List.mem_map] at hrow
  obtain ⟨r, hr, rfl⟩ := hrow
  rw [slideRow_length]
  exact h.2 r hr

theorem cellOf_zero_iff_exists {b : Board} {n : Nat} (h : isSquare b n) :
    (∃ row ∈ b, (0 : Tile) ∈ row) ↔ ∃ r c, r < n ∧ c < n ∧ cellOf b r c = 0 := by
  constructor
  · rintro ⟨row, hrow, h0⟩
    obtain ⟨r, hr⟩ := List.mem_iff_getElem?.mp hrow
    obtain ⟨c, hc⟩ := List.mem_iff_getElem?.mp h0
    have hrl := (List.getElem?_eq_some_iff.mp hr).1
    have hcl := (List.getElem?_eq_some_iff.mp hc).1
    have hrow_eq : b.getD r [] = row := by
      rw [List.getD_eq_getElem?_getD, hr]
      rfl
    refine ⟨r, c, by rw [← h.1]; exact hrl, ?_, ?_⟩
    · rw [← h.2 row hrow]
      exact hcl
    · unfold cellOf
      rw [hrow_eq, List.getD_eq_getElem?_getD, hc]
      rfl
  · rintro ⟨r, c, hr, hc, h0⟩
    have hrl : r < b.length := by rw [h.1]; exact hr
    have hrow_mem : b.getD r [] ∈ b := by
      rw [List.getD_eq_getElem _ _ hrl]
      exact List.getElem_mem _
    refine ⟨b.getD r [], hrow_mem, ?_⟩
    have hcl : c < (b.getD r []).length := by
      rw [h.2 _ hrow_mem]
      exact hc
    have := h0
    unfold cellOf at this
    rw [List.getD_eq_getElem _ _ hcl] at this
    rw [← this]
    exact List.getElem_mem _

theorem hasZero_rotateBoard {b : Board} {n : Nat} (h : isSquare b n)
    (hz : ∃ row ∈ b, (0 : Tile) ∈ row) :
    ∃ row ∈ rotateBoard b, (0 : Tile) ∈ row := by
  rw [cellOf_zero_iff_exists h] at hz
  obtain ⟨r, c, hr, hc, h0⟩ := hz
  rw [cellOf_zero_iff_exists (isSquare_rotateBoard h)]
  refine ⟨c, n - 1 - r, hc, by omega, ?_⟩
  rw [cellOf_rotateBoard h hc (by omega)]
  have he : n - 1 - (n - 1 - r) = r := by omega
  rw [he]
  exact h0

theorem moveUp_board (b : Board) :
    (moveUp b).1 = rotateBoard ((moveLeft (rotateBoard (rotateBoard (rotateBoard b)))).1) :=
  rfl

theorem moveDown_board (b : Board) :
    (moveDown b).1
      = rotateBoard (rotateBoard (rotateBoard ((moveLeft (rotateBoard b)).1))) :=
  rfl

theorem applyDirection_changed_hasZero {b : Board} {n : Nat} (h : isSquare b n)
    (d : Direction) (hch : (applyDirection b d).1 ≠ b) :
    ∃ row ∈ (applyDirection b d).1, (0 : Tile) ∈ row := by
  cases d with
  | left => exact moveLeft_changed_zero hch
  | right => exact moveRight_changed_zero hch
  | up =>
    have h1 := isSquare_rotateBoard h
    have h2 := isSquare_rotateBoard h1
    have h3 := isSquare_rotateBoard h2
    have hml : (moveLeft (rotateBoard (rotateBoard (rotateBoard b)))).1
        ≠ rotateBoard (rotateBoard (rotateBoard b)) := by
      intro he
      apply hch
      show (moveUp b).1 = b
      rw [moveUp_board, he]
      exact rotateBoard_four h
    have hz := moveLeft_changed_zero hml
    show ∃ row ∈ (moveUp b).1, (0 : Tile) ∈ row
    rw [moveUp_board]
    exact hasZero_rotateBoard (isSquare_moveLeft h3) hz
  | down =>
    have h1 := isSquare_rotateBoard h
    have hml : (moveLeft (rotateBoard b)).1 ≠ rotateBoard b := by
      intro he
      apply hch
      show (moveDown b).1 = b
      rw [moveDown_board, he]
      exact rotateBoard_four h
    have hz := moveLeft_changed_zero hml
    have hsq1 := isSquare_moveLeft h1
    have hsq2 := isSquare_rotateBoard hsq1
    have hsq3 := isSquare_rotateBoard hsq2
    show ∃ row ∈ (moveDown b).1, (0 : Tile) ∈ row
    rw [moveDown_board]
    exact hasZero_rotateBoard hsq3
      (hasZero_rotateBoard hsq2 (hasZero_rotateBoard hsq1 hz))

/-! ### Fixed-point analysis of the moves (for the movability claim) -/

theorem map_fix_row {f : List Tile → List Tile} {b : Board} (hm : b.map f = b)
    {i : Nat} (hi : i < b.length) : f (b.getD i []) = b.getD i [] := by
  have h1 : (b.map f).getD i [] = b.getD i [] := by rw [hm]
  rw [List.getD_eq_getElem _ _ (by simpa using hi), List.getElem_map] at h1
  rw [List.getD_eq_getElem _ _ hi] at h1 ⊢
  exact h1

theorem reverse_getD {l : List Tile} {i : Nat} (hi : i < l.length) :
    l.reverse.getD i 0 = l.getD (l.length - 1 - i) 0 := by
  rw [List.getD_eq_getElem _ _ (by simpa using hi), List.getElem_reverse,
    List.getD_eq_getElem _ _ (by omega)]

theorem append_replicate_zeros_trailing {L : List Tile} (hnz : ∀ x ∈ L, x ≠ 0)
    {p j j' : Nat} (hjj : j ≤ j')
    (hj' : j' < (L ++ List.replicate p 0).length)
    (h0 : (L ++ List.replicate p 0).getD j 0 = 0) :
    (L ++ List.replicate p 0).getD j' 0 = 0 := by
  have hlen : (L ++ List.replicate p 0).length = L.length + p := by simp
  have hjL : L.length ≤ j := by
    by_contra hlt
    push_neg at hlt
    rw [List.getD_eq_getElem _ _ (by omega), List.getElem_append_left hlt] at h0
    exact hnz _ (List.getElem_mem _) h0
  rw [List.getD_eq_getElem _ _ hj', List.getElem_append_right (by omega)]
  exact List.getElem_replicate ..

theorem slideRow_fix_zeros_trailing {row : List Tile}
    (hfix : (slideRow row).1 = row) {j j' : Nat} (hjj : j ≤ j')
    (hj' : j' < row.length) (h0 : row.getD j 0 = 0) :
    row.getD j' 0 = 0 := by
  have hout : (mergePass (row.filter fun c => c ≠ 0)).1
      ++ List.replicate
          (row.length - (mergePass (row.filter fun c => c ≠ 0)).1.length) 0
      = row := by
    simpa only [slideRow] using hfix
  have hnz : ∀ x ∈ (mergePass (row.filter fun c => c ≠ 0)).1, x ≠ 0 := by
    apply mergePass_nonzero
    intro x hx
    simpa using (List.mem_filter.mp hx).2
  have h0b : ((mergePass (row.filter fun c => c ≠ 0)).1
      ++ List.replicate
          (row.length - (mergePass (row.filter fun c => c ≠ 0)).1.length) 0).getD j 0
      = 0 := by
    rw [hout]
    exact h0
  have hj2 : j' < ((mergePass (row.filter fun c => c ≠ 0)).1
      ++ List.replicate
          (row.length - (mergePass (row.filter fun c => c ≠ 0)).1.length) 0).length := by
    rw [hout]
    exact hj'
  have hres := append_replicate_zeros_trailing hnz hjj hj2 h0b
  rw [hout] at hres
  exact hres

theorem slideRow_rev_fix_zeros_leading {row : List Tile}
    (hfix : ((slideRow row.reverse).1).reverse = row) {j j' : Nat} (hjj : j ≤ j')
    (hj' : j' < row.length) (h0 : row.getD j' 0 = 0) :
    row.getD j 0 = 0 := by
  have hfix2 : (slideRow row.reverse).1 = row.reverse := by
    have hr := congrArg List.reverse hfix
    rwa [List.reverse_reverse] at hr
  have hlen : row.reverse.length = row.length := by simp
  have h0r : row.reverse.getD (row.length - 1 - j') 0 = 0 := by
    rw [reverse_getD (by omega)]
    have he : row.length - 1 - (row.length - 1 - j') = j' := by omega
    rw [he]
    exact h0
  have hres := slideRow_fix_zeros_trailing hfix2
    (show row.length - 1 - j' ≤ row.length - 1 - j by omega)
    (show row.length - 1 - j < row.reverse.length by omega) h0r
  rw [reverse_getD (by omega)] at hres
  have he : row.length - 1 - (row.length - 1 - j) = j := by omega
  rwa [he] at hres

theorem moveLeft_fix_slideRow {b : Board} (hfix : (moveLeft b).1 = b)
    {i : Nat} (hi : i < b.length) :
    (slideRow (b.getD i [])).1 = b.getD i [] := by
  have hm : (b.map fun r => (slideRow r).1) = b := by
    have := moveLeft_eq b
    rw [this] at hfix
    exact hfix
  exact map_fix_row hm hi

theorem moveRight_fix_row {b : Board} (hfix : (moveRight b).1 = b)
    {i : Nat} (hi : i < b.length) :
    ((slideRow ((b.getD i []).reverse)).1).reverse = b.getD i [] := by
  have hm : (b.map fun r => ((slideRow r.reverse).1).reverse) = b := by
    have := moveRight_eq b
    rw [this] at hfix
    exact hfix
  exact map_fix_row hm hi

theorem moveUp_fix_ml {b : Board} {n : Nat} (h : isSquare b n)
    (hfix : (moveUp b).1 = b) :
    (moveLeft (rotateBoard (rotateBoard (rotateBoard b)))).1
      = rotateBoard (rotateBoard (rotateBoard b)) := by
  have h1 := isSquare_rotateBoard h
  have h2 := isSquare_rotateBoard h1
  have h3 := isSquare_rotateBoard h2
  have hX := isSquare_moveLeft (b := rotateBoard (rotateBoard (rotateBoard b))) h3
  have hr : rotateBoard ((moveLeft (rotateBoard (rotateBoard (rotateBoard b)))).1)
      = b := by
    rw [← moveUp_board]
    exact hfix
  have := congrArg (fun x => rotateBoard (rotateBoard (rotateBoard x))) hr
  simpa [rotateBoard_four hX] using this

theorem moveDown_fix_ml {b : Board} {n : Nat} (h : isSquare b n)
    (hfix : (moveDown b).1 = b) :
    (moveLeft (rotateBoard b)).1 = rotateBoard b := by
  have h1 := isSquare_rotateBoard h
  have hX := isSquare_moveLeft (b := rotateBoard b) h1
  have hr : rotateBoard (rotateBoard (rotateBoard ((moveLeft (rotateBoard b)).1)))
      = b := by
    rw [← moveDown_board]
    exact hfix
  have := congrArg rotateBoard hr
  simpa [rotateBoard_four hX] using this

theorem getD_mem {b : Board} {i : Nat} (hi : i < b.length) : b.getD i [] ∈ b := by
  rw [List.getD_eq_getElem _ _ hi]
  exact List.getElem_mem _

theorem row_get_eq_cellOf {b : Board} {i j : Nat}
    (hh : j < (b.getD i []).length) :
    (b.getD i []).get ⟨j, hh⟩ = cellOf b i j := by
  unfold cellOf
  rw [List.get_eq_getElem, List.getD_eq_getElem _ _ hh]

theorem row_nonzero_of_cells {b : Board} {n : Nat} (h : isSquare b n)
    (h0 : ∀ r c, r < n → c < n → cellOf b r c ≠ 0) {i : Nat} (hi : i < n) :
    ∀ x ∈ b.getD i [], x ≠ 0 := by
  intro x hx
  have hib : i < b.length := by rw [h.1]; exact hi
  have hrlen : (b.getD i []).length = n := h.2 _ (getD_mem hib)
  obtain ⟨c, hc⟩ := List.mem_iff_getElem?.mp hx
  have hcl := (List.getElem?_eq_some_iff.mp hc).1
  have hcell : cellOf b i c = x := by
    unfold cellOf
    rw [List.getD_eq_getElem?_getD (b.getD i []), hc]
    rfl
  rw [← hcell]
  exact h0 i c hi (by omega)

theorem cellOf_rotateBoard3 {b : Board} {n : Nat} (h : isSquare b n)
    {r c : Nat} (hr : r < n) (hc : c < n) :
    cellOf (rotateBoard (rotateBoard (rotateBoard b))) r c
      = cellOf b c (n - 1 - r) := by
  have h1 := isSquare_rotateBoard h
  have h2 := isSquare_rotateBoard h1
  rw [cellOf_rotateBoard h2 hr hc, cellOf_rotateBoard h1 (by omega) hr,
    cellOf_rotateBoard h (by omega) (by omega)]
  congr 1
  omega

theorem board_zeros_right {b : Board} {n : Nat} (h : isSquare b n)
    (hfix : (moveLeft b).1 = b) {i j j' : Nat} (hi : i < n) (hjj : j ≤ j')
    (hj' : j' < n) (h0 : cellOf b i j = 0) :
    cellOf b i j' = 0 := by
  have hib : i < b.length := by rw [h.1]; exact hi
  have hrlen : (b.getD i []).length = n := h.2 _ (getD_mem hib)
  have hsr := moveLeft_fix_slideRow hfix hib
  exact slideRow_fix_zeros_trailing hsr hjj (by rw [hrlen]; exact hj') h0

theorem board_zeros_left {b : Board} {n : Nat} (h : isSquare b n)
    (hfix : (moveRight b).1 = b) {i j j' : Nat} (hi : i < n) (hjj : j ≤ j')
    (hj' : j' < n) (h0 : cellOf b i j' = 0) :
    cellOf b i j = 0 := by
  have hib : i < b.length := by rw [h.1]; exact hi
  have hrlen : (b.getD i []).length = n := h.2 _ (getD_mem hib)
  have hsr := moveRight_fix_row hfix hib
  exact slideRow_rev_fix_zeros_leading hsr hjj (by rw [hrlen]; exact hj') h0

theorem board_zeros_down {b : Board} {n : Nat} (h : isSquare b n)
    (hfix : (moveLeft (rotateBoard (rotateBoard (rotateBoard b)))).1
      = rotateBoard (rotateBoard (rotateBoard b)))
    {i i' j : Nat} (hii : i ≤ i') (hi' : i' < n) (hj : j < n)
    (h0 : cellOf b i j = 0) :
    cellOf b i' j = 0 := by
  have h1 := isSquare_rotateBoard h
  have h2 := isSquare_rotateBoard h1
  have h3 := isSquare_rotateBoard h2
  have e1 : cellOf (rotateBoard (rotateBoard (rotateBoard b))) (n - 1 - j) i
      = cellOf b i j := by
    rw [cellOf_rotateBoard3 h (by omega) (by omega)]
    congr 1
    omega
  have e2 : cellOf (rotateBoard (rotateBoard (rotateBoard b))) (n - 1 - j) i'
      = cellOf b i' j := by
    rw [cellOf_rotateBoard3 h (by omega) (by omega)]
    congr 1
    omega
  have hres := board_zeros_right h3 hfix (by omega : n - 1 - j < n) hii hi'
    (by rw [e1]; exact h0)
  rwa [e2] at hres

theorem board_zeros_up {b : Board} {n : Nat} (h : isSquare b n)
    (hfix : (moveLeft (rotateBoard b)).1 = rotateBoard b)
    {i i' j : Nat} (hii : i ≤ i') (hi' : i' < n) (hj : j < n)
    (h0 : cellOf b i' j = 0) :
    cellOf b i j = 0 := by
  have h1 := isSquare_rotateBoard h
  have e1 : cellOf (rotateBoard b) j (n - 1 - i') = cellOf b i' j := by
    rw [cellOf_rotateBoard h hj (by omega)]
    congr 1
    omega
  have e2 : cellOf (rotateBoard b) j (n - 1 - i) = cellOf b i j := by
    rw [cellOf_rotateBoard h hj (by omega)]
    congr 1
    omega
  have hres := board_zeros_right h1 hfix hj
    (show n - 1 - i' ≤ n - 1 - i by omega) (by omega : n - 1 - i < n)
    (by rw [e1]; exact h0)
  rwa [e2] at hres

theorem moveLeft_changes_of_pair {b : Board} {n : Nat} (h : isSquare b n)
    (h0 : ∀ r c, r < n → c < n → cellOf b r c ≠ 0)
    {i j : Nat} (hi : i < n) (hj : j + 1 < n)
    (hpair : cellOf b i j = cellOf b i (j + 1)) :
    (moveLeft b).1 ≠ b := by
  intro hfix
  have hib : i < b.length := by rw [h.1]; exact hi
  have hrlen : (b.getD i []).length = n := h.2 _ (getD_mem hib)
  have hsr := moveLeft_fix_slideRow hfix hib
  have hnz := row_nonzero_of_cells h h0 hi
  have hch : ¬ (b.getD i []).Chain' (· ≠ ·) := by
    intro hchain
    have hlt : j < (b.getD i []).length - 1 := by rw [hrlen]; omega
    apply List.chain'_iff_get.mp hchain j hlt
    rw [row_get_eq_cellOf (by omega), row_get_eq_cellOf (by omega)]
    exact hpair
  exact slideRow_ne_of_nonzero_not_chain hnz hch hsr

theorem rev_row_get_eq_cellOf {b : Board} {n : Nat} (h : isSquare b n) {i : Nat}
    (hi : i < n) {j : Nat} (hh : j < ((b.getD i []).reverse).length) :
    ((b.getD i []).reverse).get ⟨j, hh⟩ = cellOf b i (n - 1 - j) := by
  have hrlen : (b.getD i []).length = n := h.2 _ (getD_mem (by rw [h.1]; exact hi))
  have hb : (b.getD i []).length - 1 - j < (b.getD i []).length := by
    simp only [List.length_reverse] at hh
    omega
  rw [List.get_eq_getElem, List.getElem_reverse, ← List.getD_eq_getElem _ 0 hb]
  unfold cellOf
  rw [hrlen]

theorem moveLeft_fix_of_good {b : Board} {n : Nat} (h : isSquare b n)
    (h0 : ∀ r c, r < n → c < n → cellOf b r c ≠ 0)
    (hH : ∀ i j, i < n → j + 1 < n → cellOf b i j ≠ cellOf b i (j + 1)) :
    (moveLeft b).1 = b := by
  have hml : (moveLeft b).1 = b.map fun r => (slideRow r).1 := by rw [moveLeft_eq]
  rw [hml]
  apply map_eq_self_of_getD
  intro i hib
  have hi : i < n := by rw [← h.1]; exact hib
  have hrlen : (b.getD i []).length = n := h.2 _ (getD_mem hib)
  have hnz := row_nonzero_of_cells h h0 hi
  have hch : (b.getD i []).Chain' (· ≠ ·) := by
    rw [List.chain'_iff_get]
    intro j hlt
    rw [row_get_eq_cellOf (by omega), row_get_eq_cellOf (by omega)]
    exact hH i j hi (by rw [hrlen] at hlt; omega)
  rw [slideRow_fix_of_nonzero_chain hnz hch]

theorem moveRight_fix_of_good {b : Board} {n : Nat} (h : isSquare b n)
    (h0 : ∀ r c, r < n → c < n → cellOf b r c ≠ 0)
    (hH : ∀ i j, i < n → j + 1 < n → cellOf b i j ≠ cellOf b i (j + 1)) :
    (moveRight b).1 = b := by
  have hmr : (moveRight b).1 = b.map fun r => ((slideRow r.reverse).1).reverse := by
    rw [moveRight_eq]
  rw [hmr]
  apply map_eq_self_of_getD
  intro i hib
  have hi : i < n := by rw [← h.1]; exact hib
  have hrlen : (b.getD i []).length = n := h.2 _ (getD_mem hib)
  have hnz : ∀ x ∈ (b.getD i []).reverse, x ≠ 0 := fun x hx =>
    row_nonzero_of_cells h h0 hi x (List.mem_reverse.mp hx)
  have hch : ((b.getD i []).reverse).Chain' (· ≠ ·) := by
    rw [List.chain'_iff_get]
    intro j hlt
    have hlen2 : ((b.getD i []).reverse).length = n := by
      rw [List.length_reverse]
      exact hrlen
    have hjn : j < n - 1 := by omega
    rw [rev_row_get_eq_cellOf h hi, rev_row_get_eq_cellOf h hi]
    intro heq
    apply hH i (n - 1 - (j + 1)) hi (by omega)
    have e : n - 1 - (j + 1) + 1 = n - 1 - j := by omega
    rw [e]
    exact heq.symm
  have hfix := slideRow_fix_of_nonzero_chain hnz hch
  rw [hfix]
  simp

theorem good_rotate {b : Board} {n : Nat} (h : isSquare b n)
    (h0 : ∀ r c, r < n → c < n → cellOf b r c ≠ 0)
    (hH : ∀ i j, i < n → j + 1 < n → cellOf b i j ≠ cellOf b i (j + 1))
    (hV : ∀ i j, i + 1 < n → j < n → cellOf b i j ≠ cellOf b (i + 1) j) :
    (∀ r c, r < n → c < n → cellOf (rotateBoard b) r c ≠ 0)
    ∧ (∀ i j, i < n → j + 1 < n →
        cellOf (rotateBoard b) i j ≠ cellOf (rotateBoard b) i (j + 1))
    ∧ (∀ i j, i + 1 < n → j < n →
        cellOf (rotateBoard b) i j ≠ cellOf (rotateBoard b) (i + 1) j) := by
  refine ⟨?_, ?_, ?_⟩
  · intro r c hr hc
    rw [cellOf_rotateBoard h hr hc]
    exact h0 _ _ (by omega) hr
  · intro i j hi hj
    rw [cellOf_rotateBoard h hi (by omega), cellOf_rotateBoard h hi hj]
    intro heq
    apply hV (n - 1 - (j + 1)) i (by omega) (by omega)
    have e : n - 1 - (j + 1) + 1 = n - 1 - j := by omega
    rw [e]
    exact heq.symm
  · intro i j hi hj
    rw [cellOf_rotateBoard h (by omega) hj, cellOf_rotateBoard h (by omega) hj]
    exact hH (n - 1 - j) i (by omega) (by omega)

theorem canMove_eq_true_iff (b : Board) :
    canMove b = true ↔
      getEmptyCells b ≠ []
      ∨ (∃ i j, i < b.length ∧ j + 1 < b.length
          ∧ cellOf b i j = cellOf b i (j + 1))
      ∨ (∃ i j, i + 1 < b.length ∧ j < b.length
          ∧ cellOf b i j = cellOf b (i + 1) j) := by
  simp only [canMove]
  by_cases hemp : 0 < (getEmptyCells b).length
  · rw [if_pos hemp]
    constructor
    · intro _
      left
      intro hnil
      rw [hnil] at hemp
      simp at hemp
    · intro _
      rfl
  · rw [if_neg hemp]
    have hnil : getEmptyCells b = [] := by
      cases hl : getEmptyCells b with
      | nil => rfl
      | cons a t => rw [hl] at hemp; simp at hemp
    constructor
    · intro hany
      right
      simp only [List.any_eq_true, List.mem_range] at hany
      obtain ⟨i, hi, j, hj, hcond⟩ := hany
      rw [Bool.or_eq_true] at hcond
      rcases hcond with hcond | hcond
      · left
        rw [Bool.and_eq_true, decide_eq_true_iff, beq_iff_eq] at hcond
        exact ⟨i, j, hi, by omega, hcond.2⟩
      · right
        rw [Bool.and_eq_true, decide_eq_true_iff, beq_iff_eq] at hcond
        exact ⟨i, j, by omega, hj, hcond.2⟩
    · intro hx
      rcases hx with hx | hx | hx
      · exact absurd hnil hx
      · obtain ⟨i, j, hi, hj, he⟩ := hx
        simp only [List.any_eq_true, List.mem_range]
        refine ⟨i, hi, j, by omega, ?_⟩
        rw [Bool.or_eq_true]
        left
        rw [Bool.and_eq_true, decide_eq_true_iff, beq_iff_eq]
        exact ⟨by omega, he⟩
      · obtain ⟨i, j, hi, hj, he⟩ := hx
        simp only [List.any_eq_true, List.mem_range]
        refine ⟨i, by omega, j, hj, ?_⟩
        rw [Bool.or_eq_true]
        right
        rw [Bool.and_eq_true, decide_eq_true_iff, beq_iff_eq]
        exact ⟨by omega, he⟩

theorem applyDirection_fix_of_canMove_false {b : Board} {n : Nat}
    (h : isSquare b n) (hcm : canMove b = false) (d : Direction) :
    (applyDirection b d).1 = b := by
  have h1 := isSquare_rotateBoard h
  have h2 := isSquare_rotateBoard h1
  have h3 := isSquare_rotateBoard h2
  have hiff := canMove_eq_true_iff b
  rw [h.1] at hiff
  have hnot : ¬ (getEmptyCells b ≠ []
      ∨ (∃ i j, i < n ∧ j + 1 < n ∧ cellOf b i j = cellOf b i (j + 1))
      ∨ (∃ i j, i + 1 < n ∧ j < n ∧ cellOf b i j = cellOf b (i + 1) j)) := by
    rw [← hiff, hcm]
    simp
  push_neg at hnot
  obtain ⟨hnil, hH, hV⟩ := hnot
  have h0 : ∀ r c, r < n → c < n → cellOf b r c ≠ 0 := by
    intro r c hr hc hzero
    obtain ⟨row, hrow, h0m⟩ :=
      (cellOf_zero_iff_exists h).mpr ⟨r, c, hr, hc, hzero⟩
    exact getEmptyCells_eq_nil_iff.mp hnil row hrow 0 h0m rfl
  obtain ⟨h0r1, hHr1, hVr1⟩ := good_rotate h h0 hH hV
  obtain ⟨h0r2, hHr2, hVr2⟩ := good_rotate h1 h0r1 hHr1 hVr1
  obtain ⟨h0r3, hHr3, hVr3⟩ := good_rotate h2 h0r2 hHr2 hVr2
  cases d with
  | left => exact moveLeft_fix_of_good h h0 hH
  | right => exact moveRight_fix_of_good h h0 hH
  | up =>
    show (moveUp b).1 = b
    rw [moveUp_board, moveLeft_fix_of_good h3 h0r3 hHr3]
    exact rotateBoard_four h
  | down =>
    show (moveDown b).1 = b
    rw [moveDown_board, moveLeft_fix_of_good h1 h0r1 hHr1]
    exact rotateBoard_four h

theorem exists_change_of_canMove {b : Board} {n : Nat} (h : isSquare b n)
    (hnz : ∃ r c, r < n ∧ c < n ∧ cellOf b r c ≠ 0)
    (hcm : canMove b = true) : ∃ d, (applyDirection b d).1 ≠ b := by
  by_contra hnot
  push_neg at hnot
  have hL : (moveLeft b).1 = b := hnot Direction.left
  have hR : (moveRight b).1 = b := hnot Direction.right
  have hU3 : (moveLeft (rotateBoard (rotateBoard (rotateBoard b)))).1
      = rotateBoard (rotateBoard (rotateBoard b)) :=
    moveUp_fix_ml h (hnot Direction.up)
  have hD1 : (moveLeft (rotateBoard b)).1 = rotateBoard b :=
    moveDown_fix_ml h (hnot Direction.down)
  obtain ⟨r1, c1, hr1, hc1, hnz1⟩ := hnz
  have hiff := canMove_eq_true_iff b
  rw [h.1] at hiff
  by_cases hemp : getEmptyCells b = []
  · have h0 : ∀ r c, r < n → c < n → cellOf b r c ≠ 0 := by
      intro r c hr hc hzero
      obtain ⟨row, hrow, h0m⟩ :=
        (cellOf_zero_iff_exists h).mpr ⟨r, c, hr, hc, hzero⟩
      exact getEmptyCells_eq_nil_iff.mp hemp row hrow 0 h0m rfl
    rcases hiff.mp hcm with hx | hx | hx
    · exact hx hemp
    · obtain ⟨i, j, hi, hj, hpair⟩ := hx
      exact moveLeft_changes_of_pair h h0 hi hj hpair hL
    · obtain ⟨i, j, hi, hj, hpair⟩ := hx
      have h1 := isSquare_rotateBoard h
      have h0r : ∀ r c, r < n → c < n → cellOf (rotateBoard b) r c ≠ 0 := by
        intro r c hr hc
        rw [cellOf_rotateBoard h hr hc]
        exact h0 _ _ (by omega) hr
      have hpr : cellOf (rotateBoard b) j (n - 2 - i)
          = cellOf (rotateBoard b) j (n - 2 - i + 1) := by
        have e1 : cellOf (rotateBoard b) j (n - 2 - i) = cellOf b (i + 1) j := by
          rw [cellOf_rotateBoard h hj (by omega)]
          congr 1
          omega
        have e2 : cellOf (rotateBoard b) j (n - 2 - i + 1) = cellOf b i j := by
          rw [cellOf_rotateBoard h hj (by omega)]
          congr 1
          omega
        rw [e1, e2]
        exact hpair.symm
      exact moveLeft_changes_of_pair h1 h0r hj (by omega) hpr hD1
  · have hz : ∃ row ∈ b, (0 : Tile) ∈ row := by
      by_contra hall
      push_neg at hall
      apply hemp
      apply getEmptyCells_eq_nil_iff.mpr
      intro row hrow x hx heq
      subst heq
      exact hall row hrow hx
    obtain ⟨r0, c0, hr0, hc0, hzero⟩ := (cellOf_zero_iff_exists h).mp hz
    have hrow0 : ∀ j, j < n → cellOf b r0 j = 0 := by
      intro j hj
      rcases le_or_lt c0 j with hle | hlt
      · exact board_zeros_right h hL hr0 hle hj hzero
      · exact board_zeros_left h hR hr0 (le_of_lt hlt) hc0 hzero
    have hzc1 : cellOf b r0 c1 = 0 := hrow0 c1 hc1
    have hzr1 : cellOf b r1 c1 = 0 := by
      rcases le_or_lt r0 r1 with hle | hlt
      · exact board_zeros_down h hU3 hle hr1 hc1 hzc1
      · exact board_zeros_up h hD1 (le_of_lt hlt) hr0 hc1 hzc1
    exact hnz1 hzr1

/-! ### Claim theorems (first batch) -/

/-- C1 (code bug exhibit): the board `[[2,0],[0,0]]` with `won = true` and an
accepted `right` move: `makeMove` returns a state whose `won` flag is `false`,
so the victory flag is not sticky (`won = !state.won && hasWon(newBoard)`
clears it on the next accepted move). -/
theorem makeMove_won_reset_example :
    (GameState.won { board := [[2,0],[0,0]], score := 0, gameOver := false, won := true } = true)
    ∧ makeMove 0 false
        { board := [[2,0],[0,0]], score := 0, gameOver := false, won := true }
        Direction.right
      = { board := [[2,2],[0,0]], score := 0, gameOver := false, won := false } := by
  decide

/-- C2: a move whose directional slide leaves the grid unchanged is a no-op:
`makeMove` returns the input state itself — no spawn, no score change, no
flag change — for every choice of spawn randomness. -/
theorem makeMove_noop (k : Nat) (v : Bool) (s : GameState) (d : Direction)
    (hterm : s.gameOver = false) (h : (applyDirection s.board d).1 = s.board) :
    makeMove k v s d = s := by
  unfold makeMove
  rw [hterm]
  simp [h, boardsEqual_self]

/-- C2 witness: on `[[2,0],[0,0]]` a `left` slide changes nothing, and
`makeMove` returns the state unchanged. -/
theorem makeMove_noop_witness :
    makeMove 0 false
      { board := [[2,0],[0,0]], score := 0, gameOver := false, won := false }
      Direction.left
    = { board := [[2,0],[0,0]], score := 0, gameOver := false, won := false } :=
  makeMove_noop 0 false
    { board := [[2,0],[0,0]], score := 0, gameOver := false, won := false }
    Direction.left (by decide) (by decide)

/-- C3: a terminal state (`gameOver = true`) is absorbing: `makeMove` returns
it unchanged for every direction, every grid content and every spawn
randomness. -/
theorem makeMove_terminal_absorbing (k : Nat) (v : Bool) (s : GameState)
    (d : Direction) (hterm : s.gameOver = true) :
    makeMove k v s d = s := by
  simp [makeMove, hterm]

/-- C3 witness: a concrete terminal state is returned unchanged. -/
theorem makeMove_terminal_absorbing_witness :
    makeMove 0 false
      { board := [[2,4],[4,2]], score := 12, gameOver := true, won := false }
      Direction.up
    = { board := [[2,4],[4,2]], score := 12, gameOver := true, won := false } :=
  makeMove_terminal_absorbing 0 false
    { board := [[2,4],[4,2]], score := 12, gameOver := true, won := false }
    Direction.up (by decide)

/-- C4: the merge loop consumes both members of an equal adjacent pair (so a
freshly merged value never merges again in the same call), passes unequal
heads through, and adds each merged value to the score; in particular
`[2,2,2,2] ↦ [4,4,0,0]` with score 8 and `[2,2,2] ↦ [4,2,0]` with score 4. -/
theorem slideRow_merge_once (x y : Tile) (rest : List Tile) (h : x ≠ y) :
    mergePass (x :: x :: rest)
        = (x * 2 :: (mergePass rest).1, (mergePass rest).2 + x * 2)
    ∧ mergePass (x :: y :: rest)
        = (x :: (mergePass (y :: rest)).1, (mergePass (y :: rest)).2)
    ∧ slideRow [2,2,2,2] = ([4,4,0,0], 8)
    ∧ slideRow [2,2,2] = ([4,2,0], 4) := by
  refine ⟨?_, ?_, by decide, by decide⟩
  · simp [mergePass]
  · simp [mergePass, h]

/-- C4 witness: the merge equations evaluated at `x = 2`, `y = 3`,
`rest = []`. -/
theorem slideRow_merge_once_witness :
    mergePass [2, 2] = (2 * 2 :: (mergePass []).1, (mergePass []).2 + 2 * 2)
    ∧ mergePass [2, 3] = (2 :: (mergePass [3]).1, (mergePass [3]).2) :=
  ⟨(slideRow_merge_once 2 3 [] (by decide)).1,
   (slideRow_merge_once 2 3 [] (by decide)).2.1⟩

/-- C5 counterexample: on the all-empty 3×3 grid `canMove` returns `true`,
yet no direction changes the grid — the claimed equivalence between
`canMove` and movability fails there. -/
theorem canMove_not_movable_counterexample :
    canMove [[0,0,0],[0,0,0],[0,0,0]] = true
    ∧ ¬ ∃ d : Direction,
        (applyDirection [[0,0,0],[0,0,0],[0,0,0]] d).1
          ≠ [[0,0,0],[0,0,0],[0,0,0]] := by
  decide

/-- C5 (amended): on every square grid `canMove` returns `true` exactly when
there is an empty cell or a cell equal to its right or bottom neighbour; on a
square grid holding at least one tile this coincides with movability:
`canMove` is `true` exactly when some direction changes the grid (on the
all-empty grid `canMove` is `true` although no move changes it). -/
theorem canMove_iff_some_move_changes (n : Nat) (b : Board) (h : isSquare b n) :
    ((∃ r c, r < n ∧ c < n ∧ cellOf b r c ≠ 0) →
      (canMove b = true ↔ ∃ d, (applyDirection b d).1 ≠ b))
    ∧ (canMove b = true ↔
        getEmptyCells b ≠ []
        ∨ (∃ i j, i < n ∧ j + 1 < n ∧ cellOf b i j = cellOf b i (j + 1))
        ∨ (∃ i j, i + 1 < n ∧ j < n ∧ cellOf b i j = cellOf b (i + 1) j)) := by
  have hiff := canMove_eq_true_iff b
  rw [h.1] at hiff
  refine ⟨fun hnz => ⟨exists_change_of_canMove h hnz, ?_⟩, hiff⟩
  rintro ⟨d, hd⟩
  by_contra hcm
  have hfalse : canMove b = false := by
    cases hcmb : canMove b with
    | false => rfl
    | true => exact absurd hcmb hcm
  exact hd (applyDirection_fix_of_canMove_false h hfalse d)

/-- C5 witness: the equivalences evaluated on the 2×2 grid `[[2,0],[0,0]]`,
with the squareness and some-tile hypotheses discharged concretely. -/
theorem canMove_iff_some_move_changes_witness :
    (canMove [[2,0],[0,0]] = true
      ↔ ∃ d, (applyDirection [[2,0],[0,0]] d).1 ≠ [[2,0],[0,0]])
    ∧ (canMove [[2,0],[0,0]] = true ↔
        getEmptyCells [[2,0],[0,0]] ≠ []
        ∨ (∃ i j, i < 2 ∧ j + 1 < 2
            ∧ cellOf [[2,0],[0,0]] i j = cellOf [[2,0],[0,0]] i (j + 1))
        ∨ (∃ i j, i + 1 < 2 ∧ j < 2
            ∧ cellOf [[2,0],[0,0]] i j = cellOf [[2,0],[0,0]] (i + 1) j)) :=
  ⟨(canMove_iff_some_move_changes 2 [[2,0],[0,0]] (by decide)).1
      ⟨0, 0, by decide, by decide, by decide⟩,
   (canMove_iff_some_move_changes 2 [[2,0],[0,0]] (by decide)).2⟩

/-- C6: the `left` move is `slideRow` applied independently to every row and
the `right` move is `slideRow` on every reversed row with the result reversed
back; in both cases the gained score is the sum of the per-row gains. -/
theorem applyDirection_left_right_rowwise (b : Board) :
    applyDirection b Direction.left
        = (b.map fun r => (slideRow r).1, (b.map fun r => (slideRow r).2).sum)
    ∧ applyDirection b Direction.right
        = (b.map fun r => ((slideRow r.reverse).1).reverse,
           (b.map fun r => (slideRow r.reverse).2).sum) :=
  ⟨moveLeft_eq b, moveRight_eq b⟩

/-- C7: four clockwise rotations return any square grid exactly, for any
size `n`. -/
theorem rotateBoard_four_rounds (n : Nat) (b : Board) (h : isSquare b n) :
    rotateBoard (rotateBoard (rotateBoard (rotateBoard b))) = b :=
  rotateBoard_four h

/-- C7 witness: the round trip evaluated on the 2×2 grid `[[1,2],[3,4]]`. -/
theorem rotateBoard_four_rounds_witness :
    rotateBoard (rotateBoard (rotateBoard (rotateBoard [[1,2],[3,4]]))) = [[1,2],[3,4]] :=
  rotateBoard_four_rounds 2 [[1,2],[3,4]] (by decide)

/-- C8 counterexample: on the line `[2,2]` the output sum is 4, while the sum
of the filtered input plus the merged-pair results is 8 — the claimed
equation fails. -/
theorem slideRow_sum_counterexample :
    ¬ ((slideRow [2,2]).1.sum
        = ([2,2].filter fun c => c ≠ 0).sum + (slideRow [2,2]).2) := by
  decide

/-- C8 (amended): merging preserves the total: the output sum equals the sum
of the filtered non-zero input, which equals the input sum (each merge
replaces two equal values by their sum; the gained score is tracked
separately as the sum of merge results). -/
theorem slideRow_sum_preserved (row : List Tile) :
    (slideRow row).1.sum = (row.filter fun c => c ≠ 0).sum
    ∧ (row.filter fun c => c ≠ 0).sum = row.sum := by
  refine ⟨?_, filter_nonzero_sum row⟩
  unfold slideRow
  simp [mergePass_sum]

theorem addRandomTile_of_ne_nil (k : Nat) (v : Bool) (board : Board)
    (h0 : (getEmptyCells board).length ≠ 0) :
    ∃ r c, (r, c) ∈ getEmptyCells board
      ∧ cellOf board r c = 0
      ∧ addRandomTile k v board = setCell board r c (if v then 4 else 2) := by
  have hlen : 0 < (getEmptyCells board).length := Nat.pos_of_ne_zero h0
  have hidx : k % (getEmptyCells board).length < (getEmptyCells board).length :=
    Nat.mod_lt _ hlen
  set rc := (getEmptyCells board).getD (k % (getEmptyCells board).length) (0, 0)
    with hrc
  have hmem : rc ∈ getEmptyCells board := by
    rw [hrc, List.getD_eq_getElem _ _ hidx]
    exact List.getElem_mem hidx
  obtain ⟨row, hr, hcc⟩ :=
    mem_getEmptyCells.mp (show (rc.1, rc.2) ∈ getEmptyCells board from hmem)
  have hrow : board.getD rc.1 [] = row := by
    rw [List.getD_eq_getElem?_getD, hr]
    rfl
  refine ⟨rc.1, rc.2, hmem, ?_, ?_⟩
  · unfold cellOf
    rw [hrow, List.getD_eq_getElem?_getD, hcc]
    rfl
  · unfold addRandomTile
    rw [if_neg h0]

/-- C10: `addRandomTile` either returns a full grid unchanged, or changes
exactly one coordinate: that coordinate is an empty cell of the input (value
0), it receives value 4 or 2 according to the random draw, and every other
coordinate keeps its input value. -/
theorem addRandomTile_frame (k : Nat) (v : Bool) (board : Board) :
    (getEmptyCells board = [] ∧ addRandomTile k v board = board)
    ∨ ∃ r c, (r, c) ∈ getEmptyCells board
        ∧ cellOf board r c = 0
        ∧ addRandomTile k v board = setCell board r c (if v then 4 else 2)
        ∧ cellOf (addRandomTile k v board) r c = (if v then 4 else 2)
        ∧ ∀ i j, ¬(i = r ∧ j = c) →
            cellOf (addRandomTile k v board) i j = cellOf board i j := by
  by_cases h0 : (getEmptyCells board).length = 0
  · left
    refine ⟨List.length_eq_zero.mp h0, ?_⟩
    unfold addRandomTile
    simp [h0]
  · right
    obtain ⟨r, c, hmem, hzero, heq⟩ := addRandomTile_of_ne_nil k v board h0
    obtain ⟨row, hr, hcc⟩ :=
      mem_getEmptyCells.mp (show (r, c) ∈ getEmptyCells board from hmem)
    refine ⟨r, c, hmem, hzero, heq, ?_, ?_⟩
    · rw [heq]
      exact setCell_getD_self hr (List.getElem?_eq_some_iff.mp hcc).1
    · intro i j hij
      rw [heq]
      exact setCell_getD_other hij

/-- C9: an accepted move leaves an empty cell: whenever a directional slide
changes a square grid, the resulting grid has a non-empty list of empty
cells, so `addRandomTile` never takes its full-grid branch and always writes
one value 2 or 4 into some empty cell of the slid grid. -/
theorem applyDirection_changed_spawn (k : Nat) (v : Bool) (n : Nat) (b : Board)
    (d : Direction) (h : isSquare b n) (hch : (applyDirection b d).1 ≠ b) :
    getEmptyCells ((applyDirection b d).1) ≠ []
    ∧ ∃ r c val, (val = 2 ∨ val = 4)
        ∧ (r, c) ∈ getEmptyCells ((applyDirection b d).1)
        ∧ cellOf ((applyDirection b d).1) r c = 0
        ∧ addRandomTile k v ((applyDirection b d).1)
            = setCell ((applyDirection b d).1) r c val := by
  obtain ⟨row, hrow, h0⟩ := applyDirection_changed_hasZero h d hch
  have hne : getEmptyCells ((applyDirection b d).1) ≠ [] :=
    getEmptyCells_ne_nil_of_zero_mem hrow h0
  refine ⟨hne, ?_⟩
  obtain ⟨r, c, hmem, hzero, heq⟩ :=
    addRandomTile_of_ne_nil k v ((applyDirection b d).1)
      (fun hh => hne (List.length_eq_zero.mp hh))
  exact ⟨r, c, if v then 4 else 2, by cases v <;> simp, hmem, hzero, heq⟩

/-- C9 witness: a `right` move on `[[2,0],[0,0]]` changes the grid; the slid
grid `[[0,2],[0,0]]` has empty cells and the spawn writes a 2 at `(0,0)`. -/
theorem applyDirection_changed_spawn_witness :
    getEmptyCells ((applyDirection [[2,0],[0,0]] Direction.right).1) ≠ []
    ∧ ∃ r c val, (val = 2 ∨ val = 4)
        ∧ (r, c) ∈ getEmptyCells ((applyDirection [[2,0],[0,0]] Direction.right).1)
        ∧ cellOf ((applyDirection [[2,0],[0,0]] Direction.right).1) r c = 0
        ∧ addRandomTile 0 false ((applyDirection [[2,0],[0,0]] Direction.right).1)
            = setCell ((applyDirection [[2,0],[0,0]] Direction.right).1) r c val :=
  applyDirection_changed_spawn 0 false 2 [[2,0],[0,0]] Direction.right
    (by decide) (by decide)

end Game2048
